import Mathlib

/-!
Verification development for the gitrepo-downloader backend
(`src/backend/main.py`).  The Python source is shallowly embedded:

* strings handled character-by-character by the parser are `List Char`
  (abbreviated `Str`); opaque strings (file names, URLs fed to the HTTP
  client, file bytes) are Lean `String`s;
* every `raise HTTPException(...)` becomes the error side of an `Except`,
  with a structured error type per function whose constructors record the
  HTTP status and the data interpolated into the detail message;
* the outbound HTTP session is a function parameter mapping a URL to a
  response, and the GitHub contents API is represented by the tree of
  responses it would return (each directory entry carries the response
  for its own path).
-/

namespace GitrepoDownloader

abbrev Str := List Char

/-! ### Python string primitives used by `parse_github_repo_url` -/

/-- ASCII whitespace stripped by Python `str.strip()` (the claims only
exercise ASCII inputs, so the Unicode whitespace classes are omitted). -/
def pyIsSpace (c : Char) : Bool :=
  c == ' ' || c == '\t' || c == '\n' || c == '\r' || c == '\x0b' || c == '\x0c'

/-- Python `str.strip()`: drop leading and trailing whitespace. -/
def pyStrip (s : Str) : Str :=
  ((s.dropWhile pyIsSpace).reverse.dropWhile pyIsSpace).reverse

/-- Python `str.split(sep)` for a one-character separator: always returns
at least one (possibly empty) piece. -/
def splitOnChar (sep : Char) : Str → List Str
  | [] => [[]]
  | c :: rest =>
    if c = sep then [] :: splitOnChar sep rest
    else
      match splitOnChar sep rest with
      | [] => [[c]]
      | s :: ss => (c :: s) :: ss

/-- Split at the first occurrence of `sep`; `none` when `sep` is absent
(Python `s.split(sep, 1)` returning a two-element list vs. a singleton). -/
def splitFirst (sep : Char) : Str → Option (Str × Str)
  | [] => none
  | c :: rest =>
    if c = sep then some ([], rest)
    else (splitFirst sep rest).map (fun p => (c :: p.1, p.2))

/-- Split at the last occurrence of `sep` (via the first occurrence in the
reversal). -/
def splitLast (sep : Char) (s : Str) : Option (Str × Str) :=
  match splitFirst sep s.reverse with
  | none => none
  | some (x, y) => some (y.reverse, x.reverse)

/-! ### The fragment of `urllib.parse.urlparse` exercised by the source

`parse_github_repo_url` consults only `parsed.netloc` and `parsed.path`,
but the model follows CPython `urlsplit`/`urlparse` step by step: removal
of the unsafe bytes tab/CR/LF, scheme recognition, netloc extraction
after `//`, then fragment, query and params splitting. -/

structure UrlParts where
  scheme : Str
  netloc : Str
  path : Str
  params : Str
  query : Str
  fragment : Str
deriving DecidableEq, Repr

/-- Characters allowed in a URL scheme (`scheme_chars` in CPython). -/
def schemeChar (c : Char) : Bool :=
  c.isAlpha || c.isDigit || c == '+' || c == '-' || c == '.'

/-- CPython: a scheme is recognised when a colon occurs at position > 0,
the first character is a letter and all characters before the colon are
scheme characters; otherwise the URL is left untouched. -/
def splitScheme (s : Str) : Str × Str :=
  match splitFirst ':' s with
  | none => ([], s)
  | some (b, a) =>
    match b with
    | [] => ([], s)
    | c :: _ => if c.isAlpha && b.all schemeChar then (b.map Char.toLower, a) else ([], s)

/-- A netloc extends to the first of `/`, `?`, `#` (`_splitnetloc`). -/
def notNetlocDelim (c : Char) : Bool :=
  c != '/' && c != '?' && c != '#'

/-- CPython `urlparse._splitparams`: params are what follows the first
`;` of the last path segment. -/
def splitParams (s : Str) : Str × Str :=
  match splitLast '/' s with
  | none =>
    match splitFirst ';' s with
    | none => (s, [])
    | some p => p
  | some (a, b) =>
    match splitFirst ';' b with
    | none => (s, [])
    | some (b1, b2) => (a ++ '/' :: b1, b2)

/-- CPython removes tab/CR/LF anywhere in the URL before parsing. -/
def removeUnsafe (s : Str) : Str :=
  s.filter (fun c => c != '\t' && c != '\r' && c != '\n')

/-- After the scheme, a `//` introduces the netloc, which extends to the
first delimiter. -/
def splitNetloc (s : Str) : Str × Str :=
  if ['/', '/'].isPrefixOf s then
    ((s.drop 2).takeWhile notNetlocDelim, (s.drop 2).dropWhile notNetlocDelim)
  else ([], s)

/-- `url.split('#', 1)` when a fragment is present. -/
def splitFragment (s : Str) : Str × Str :=
  match splitFirst '#' s with
  | none => (s, [])
  | some p => p

/-- `url.split('?', 1)` when a query is present. -/
def splitQuery (s : Str) : Str × Str :=
  match splitFirst '?' s with
  | none => (s, [])
  | some p => p

/-- CPython `urllib.parse.urlparse` restricted to the fields the source
reads.  The leading strip of C0 control bytes never fires on the inputs
the claims exercise and is omitted; the tab/CR/LF removal is kept. -/
def pyUrlparse (url0 : Str) : UrlParts :=
  let u1 := removeUnsafe url0
  let sp := splitScheme u1
  let nl := splitNetloc sp.2
  let fr := splitFragment nl.2
  let qu := splitQuery fr.1
  let pp := splitParams qu.1
  ⟨sp.1, nl.1, pp.1, pp.2, qu.2, fr.2⟩

/-! ### `parse_github_repo_url` (src/backend/main.py lines 31-71) -/

/-- The single parser failure: `HTTPException(400, "Invalid GitHub repo URL")`. -/
inductive ParseErr where
  | invalidReference
deriving DecidableEq, Repr

def gitSuffix : Str := ['.', 'g', 'i', 't']

def sshMarker : Str := ['g', 'i', 't', '@']

def githubHost : Str := ['g', 'i', 't', 'h', 'u', 'b', '.', 'c', 'o', 'm']

/-- Python substring test `pat in s`. -/
def isSubstr (pat : Str) : Str → Bool
  | [] => pat.isPrefixOf []
  | c :: rest => pat.isPrefixOf (c :: rest) || isSubstr pat rest

/-- Python `repo[:-4] if repo.endswith(".git") else repo`. -/
def stripGitSuffix (s : Str) : Str :=
  if gitSuffix.isSuffixOf s then s.take (s.length - 4) else s

/-- Lines 46-57: obtain the owner/repo segment.  `none` models the
`IndexError` branch (a `git@` input with no colon), re-raised as the 400
error.  For a URL whose netloc contains `github.com` the path is taken
with leading slashes stripped; otherwise the whole (stripped) input is
the segment. -/
def deriveSegment (stripped : Str) : Option Str :=
  if sshMarker.isPrefixOf stripped then
    (splitFirst ':' stripped).map Prod.snd
  else
    let p := pyUrlparse stripped
    if p.netloc ≠ [] ∧ isSubstr githubHost (p.netloc.map Char.toLower) = true then
      some (p.path.dropWhile (fun c => c == '/'))
    else
      some stripped

/-- Lines 31-71 of the source: empty-input check, strip, segment
derivation, split on `/`, the `len(parts) < 2 or not parts[0] or not
parts[1]` check, and the `.git` suffix strip on the repo component. -/
def parse_github_repo_url (url : Str) : Except ParseErr (Str × Str) :=
  if url = [] then .error .invalidReference
  else
    match deriveSegment (pyStrip url) with
    | none => .error .invalidReference
    | some seg =>
      match splitOnChar '/' seg with
      | p0 :: p1 :: _ =>
        if p0 = [] ∨ p1 = [] then .error .invalidReference
        else .ok (p0, stripGitSuffix p1)
      | _ => .error .invalidReference

/-! ### Lemmas about the string primitives -/

theorem dropWhile_eq_self_of_all {p : Char → Bool} {s : Str}
    (h : ∀ c ∈ s, p c = false) : s.dropWhile p = s := by
  cases s with
  | nil => rfl
  | cons a t => simp [List.dropWhile_cons, h a (List.mem_cons_self a t)]

theorem dropWhile_head_false {p : Char → Bool} {s : Str} {c : Char} {t : Str}
    (h : s.dropWhile p = c :: t) : p c = false := by
  induction s with
  | nil => simp at h
  | cons a s ih =>
    rw [List.dropWhile_cons] at h
    by_cases hpa : p a = true
    · exact ih (by simpa [hpa] using h)
    · simp [hpa] at h
      simp [← h.1]
      simpa using hpa

theorem dropWhile_idem {p : Char → Bool} (s : Str) :
    (s.dropWhile p).dropWhile p = s.dropWhile p := by
  cases hd : s.dropWhile p with
  | nil => rfl
  | cons c t => simp [List.dropWhile_cons, dropWhile_head_false hd]

theorem pyStrip_eq_self {s : Str} (h : ∀ c ∈ s, pyIsSpace c = false) :
    pyStrip s = s := by
  unfold pyStrip
  rw [dropWhile_eq_self_of_all h,
      dropWhile_eq_self_of_all (by simpa using fun c hc => h c hc),
      List.reverse_reverse]

theorem pyStrip_idem (s : Str) : pyStrip (pyStrip s) = pyStrip s := by
  unfold pyStrip
  set L := (s.dropWhile pyIsSpace) with hL
  set t := (L.reverse.dropWhile pyIsSpace).reverse with ht
  have hdrop : t.dropWhile pyIsSpace = t := by
    cases hLc : L with
    | nil => simp [ht, hLc]
    | cons c l =>
      have hpt : t <+: L := by
        obtain ⟨w, hw⟩ :=
          (List.dropWhile_suffix pyIsSpace :
            List.dropWhile pyIsSpace L.reverse <:+ L.reverse)
        refine ⟨w.reverse, ?_⟩
        rw [ht, ← List.reverse_append, hw, List.reverse_reverse]
      cases htc : t with
      | nil => rfl
      | cons d u =>
        have hd : d = c := by
          rcases hpt with ⟨w, hw⟩
          rw [htc, hLc] at hw
          exact (List.cons.injEq _ _ _ _ ▸ hw).1
        have hc : pyIsSpace c = false :=
          dropWhile_head_false (hL.symm.trans hLc)
        simp [List.dropWhile_cons, hd, hc]
  rw [hdrop, List.reverse_reverse, dropWhile_idem]

theorem splitFirst_eq_none {sep : Char} {s : Str} (h : sep ∉ s) :
    splitFirst sep s = none := by
  induction s with
  | nil => rfl
  | cons c t ih =>
    have hc : ¬ c = sep := by rintro rfl; exact h (List.mem_cons_self _ _)
    simp only [splitFirst, if_neg hc]
    rw [ih (fun hm => h (List.mem_cons_of_mem _ hm))]
    rfl

theorem splitFirst_append {sep : Char} {a : Str} (b : Str) (h : sep ∉ a) :
    splitFirst sep (a ++ sep :: b) = some (a, b) := by
  induction a with
  | nil => simp [splitFirst]
  | cons c t ih =>
    have hc : ¬ c = sep := by rintro rfl; exact h (List.mem_cons_self _ _)
    have ih' := ih (fun hm => h (List.mem_cons_of_mem _ hm))
    simp [List.cons_append, splitFirst, if_neg hc, List.append_eq, ih']

theorem splitFirst_some {sep : Char} {s x y : Str}
    (h : splitFirst sep s = some (x, y)) : s = x ++ sep :: y ∧ sep ∉ x := by
  induction s generalizing x y with
  | nil => simp [splitFirst] at h
  | cons c t ih =>
    by_cases hc : c = sep
    · subst hc
      simp only [splitFirst, if_pos rfl, Option.some.injEq] at h
      cases h
      simp
    · simp only [splitFirst, if_neg hc] at h
      cases hsf : splitFirst sep t with
      | none => rw [hsf] at h; simp at h
      | some p =>
        obtain ⟨p1, p2⟩ := p
        rw [hsf] at h
        have h' : (c :: p1, p2) = (x, y) := by simpa using h
        cases h'
        obtain ⟨hp, hmem⟩ := ih hsf
        refine ⟨by rw [hp]; rfl, ?_⟩
        intro hm
        rcases List.mem_cons.mp hm with h1 | h1
        · exact hc h1.symm
        · exact hmem h1

theorem splitFirst_none_iff {sep : Char} {s : Str} :
    splitFirst sep s = none ↔ sep ∉ s := by
  constructor
  · intro h hm
    induction s with
    | nil => simp at hm
    | cons c t ih =>
      by_cases hc : c = sep
      · subst hc; simp [splitFirst] at h
      · simp only [splitFirst, if_neg hc] at h
        rcases List.mem_cons.mp hm with h1 | h1
        · exact hc h1.symm
        · cases hsf : splitFirst sep t with
          | none => exact ih hsf h1
          | some p => rw [hsf] at h; simp at h
  · exact splitFirst_eq_none

theorem splitLast_some_mem {sep : Char} {s a b : Str}
    (h : splitLast sep s = some (a, b)) : ∀ c ∈ b, c ∈ s := by
  unfold splitLast at h
  cases hsf : splitFirst sep s.reverse with
  | none => rw [hsf] at h; simp at h
  | some p =>
    obtain ⟨p1, p2⟩ := p
    rw [hsf] at h
    obtain ⟨hp, _⟩ := splitFirst_some hsf
    have h' : (p2.reverse, p1.reverse) = (a, b) := by simpa using h
    cases h'
    intro c hc
    have hc1 : c ∈ p1 := by simpa using hc
    have : c ∈ s.reverse := by rw [hp]; simp [hc1]
    simpa using this

theorem splitOnChar_not_mem {sep : Char} {s : Str} (h : sep ∉ s) :
    splitOnChar sep s = [s] := by
  induction s with
  | nil => rfl
  | cons c t ih =>
    have hc : ¬ c = sep := by rintro rfl; exact h (List.mem_cons_self _ _)
    simp only [splitOnChar, if_neg hc, ih (fun hm => h (List.mem_cons_of_mem _ hm))]

theorem splitOnChar_ne_nil (sep : Char) (s : Str) : splitOnChar sep s ≠ [] := by
  cases s with
  | nil => simp [splitOnChar]
  | cons c t =>
    simp only [splitOnChar]
    split
    · simp
    · cases h : splitOnChar sep t <;> simp

theorem splitOnChar_append {sep : Char} {a : Str} (b : Str) (h : sep ∉ a) :
    splitOnChar sep (a ++ sep :: b) = a :: splitOnChar sep b := by
  induction a with
  | nil => simp [splitOnChar]
  | cons c t ih =>
    have hc : ¬ c = sep := by rintro rfl; exact h (List.mem_cons_self _ _)
    have ih' := ih (fun hm => h (List.mem_cons_of_mem _ hm))
    simp [List.cons_append, splitOnChar, if_neg hc, List.append_eq, ih']

theorem takeWhile_append_stop {p : Char → Bool} {a : Str} {b : Char} (t : Str)
    (ha : ∀ c ∈ a, p c = true) (hb : p b = false) :
    (a ++ b :: t).takeWhile p = a ∧ (a ++ b :: t).dropWhile p = b :: t := by
  induction a with
  | nil => simp [List.takeWhile_cons, List.dropWhile_cons, hb]
  | cons c u ih =>
    have hc : p c = true := ha c (List.mem_cons_self _ _)
    have := ih (fun d hd => ha d (List.mem_cons_of_mem _ hd))
    simp [List.takeWhile_cons, List.dropWhile_cons, hc, this.1, this.2]

theorem stripGitSuffix_append (r : Str) : stripGitSuffix (r ++ gitSuffix) = r := by
  unfold stripGitSuffix
  rw [if_pos (List.isSuffixOf_iff_suffix.mpr (List.suffix_append r gitSuffix))]
  have : (r ++ gitSuffix).length - 4 = r.length := by
    simp [List.length_append, gitSuffix]
  rw [this]
  exact List.take_left r gitSuffix

theorem stripGitSuffix_eq_self {r : Str} (h : gitSuffix.isSuffixOf r = false) :
    stripGitSuffix r = r := by
  unfold stripGitSuffix
  rw [if_neg (by simp [h])]

/-! ### Well-formed owner/repo names

GitHub owner and repository names are drawn from letters, digits, `-`,
`_` and `.`; that is the charset under which the five accepted reference
forms of the spec are all well defined. -/

def goodChar (c : Char) : Bool :=
  c.isAlphanum || c == '-' || c == '_' || c == '.'

theorem goodChar_not_space {c : Char} (h : goodChar c = true) :
    pyIsSpace c = false := by
  cases hs : pyIsSpace c with
  | false => rfl
  | true =>
    exfalso
    have : c = ' ' ∨ c = '\t' ∨ c = '\n' ∨ c = '\r' ∨ c = '\x0b' ∨ c = '\x0c' := by
      simpa [pyIsSpace, or_assoc] using hs
    rcases this with h1 | h1 | h1 | h1 | h1 | h1 <;> subst h1 <;>
      exact absurd h (by decide)

theorem goodChar_ne {c : Char} (h : goodChar c = true) :
    c ≠ '/' ∧ c ≠ ':' ∧ c ≠ '@' ∧ c ≠ '#' ∧ c ≠ '?' ∧ c ≠ ';' ∧
      c ≠ '\t' ∧ c ≠ '\r' ∧ c ≠ '\n' := by
  refine ⟨?_, ?_, ?_, ?_, ?_, ?_, ?_, ?_, ?_⟩ <;>
    (intro he; subst he; exact absurd h (by decide))

theorem splitParams_no_semi {s : Str} (h : ';' ∉ s) : splitParams s = (s, []) := by
  unfold splitParams
  cases hsl : splitLast '/' s with
  | none => simp [splitFirst_eq_none h]
  | some p =>
    obtain ⟨a, b⟩ := p
    have hb : ';' ∉ b := fun hm => h (splitLast_some_mem hsl _ hm)
    simp [splitFirst_eq_none hb]

theorem all_mem_of_literal {pred : Char → Bool} {lit : Str}
    (h : lit.all pred = true) : ∀ c ∈ lit, pred c = true :=
  fun c hc => List.all_eq_true.mp h c hc

/-- `urlparse` on `https://github.com/<p>` where `p` is made of path
segments over the owner/repo charset: scheme `https`, netloc
`github.com`, path `/<p>`, no params, query or fragment. -/
theorem pyUrlparse_https (p : Str)
    (hp : ∀ c ∈ p, goodChar c = true ∨ c = '/') :
    pyUrlparse ("https://github.com/".toList ++ p) =
      ⟨"https".toList, githubHost, '/' :: p, [], [], []⟩ := by
  have hpne : ∀ c ∈ p, c ≠ ':' ∧ c ≠ '?' ∧ c ≠ '#' ∧ c ≠ ';' ∧
      c ≠ '\t' ∧ c ≠ '\r' ∧ c ≠ '\n' := by
    intro c hc
    rcases hp c hc with hg | hg
    · obtain ⟨_, h2, _, h4, h5, h6, h7, h8, h9⟩ := goodChar_ne hg
      exact ⟨h2, h5, h4, h6, h7, h8, h9⟩
    · subst hg; refine ⟨?_, ?_, ?_, ?_, ?_, ?_, ?_⟩ <;> decide
  have hrm : removeUnsafe ("https://github.com/".toList ++ p) =
      "https://github.com/".toList ++ p := by
    unfold removeUnsafe
    rw [List.filter_eq_self]
    intro c hc
    rcases List.mem_append.mp hc with h1 | h1
    · exact all_mem_of_literal
        (by decide : ("https://github.com/".toList).all
          (fun c => c != '\t' && c != '\r' && c != '\n') = true) c h1
    · obtain ⟨_, _, _, _, h5, h6, h7⟩ := hpne c h1
      simp [h5, h6, h7]
  have hdecomp : "https://github.com/".toList ++ p =
      "https".toList ++ ':' :: ("//github.com/".toList ++ p) := by
    simp
  have hscheme : splitScheme ("https://github.com/".toList ++ p) =
      ("https".toList, "//github.com/".toList ++ p) := by
    rw [hdecomp]
    unfold splitScheme
    rw [splitFirst_append _ (by decide)]
    simp
    decide
  have hnl : splitNetloc ("//github.com/".toList ++ p) =
      (githubHost, '/' :: p) := by
    unfold splitNetloc
    rw [if_pos (by rfl)]
    have hd2 : ("//github.com/".toList ++ p).drop 2 =
        "github.com".toList ++ '/' :: p := by simp
    rw [hd2]
    have := takeWhile_append_stop p
      (all_mem_of_literal (by decide : ("github.com".toList).all notNetlocDelim = true))
      (by decide : notNetlocDelim '/' = false)
    rw [this.1, this.2]
    rfl
  have hnofr : splitFragment ('/' :: p) = ('/' :: p, []) := by
    unfold splitFragment
    rw [splitFirst_eq_none]
    intro hm
    rcases List.mem_cons.mp hm with h1 | h1
    · exact absurd h1 (by decide)
    · exact (hpne _ h1).2.2.1 rfl
  have hnoqu : splitQuery ('/' :: p) = ('/' :: p, []) := by
    unfold splitQuery
    rw [splitFirst_eq_none]
    intro hm
    rcases List.mem_cons.mp hm with h1 | h1
    · exact absurd h1 (by decide)
    · exact (hpne _ h1).2.1 rfl
  have hnopp : splitParams ('/' :: p) = ('/' :: p, []) := by
    apply splitParams_no_semi
    intro hm
    rcases List.mem_cons.mp hm with h1 | h1
    · exact absurd h1 (by decide)
    · exact (hpne _ h1).2.2.2.1 rfl
  simp only [pyUrlparse, hrm, hscheme, hnl, hnofr, hnoqu, hnopp]

/-- `urlparse` yields an empty netloc when the input has no colon and no
leading `//`; the parser then falls back to the bare shorthand. -/
theorem pyUrlparse_netloc_nil {s : Str} (hrm : removeUnsafe s = s)
    (hc : splitFirst ':' s = none)
    (hsl : ['/', '/'].isPrefixOf s = false) :
    (pyUrlparse s).netloc = [] := by
  simp only [pyUrlparse, hrm]
  unfold splitScheme
  rw [hc]
  simp only [splitNetloc, hsl]
  simp

theorem deriveSegment_github {s pth : Str}
    (hssh : sshMarker.isPrefixOf s = false)
    (hparse : pyUrlparse s = ⟨"https".toList, githubHost, pth, [], [], []⟩) :
    deriveSegment s = some (pth.dropWhile (fun c => c == '/')) := by
  unfold deriveSegment
  rw [if_neg (by simp [hssh]), hparse]
  rw [if_pos ((⟨by decide, by decide⟩ :
    githubHost ≠ [] ∧ isSubstr githubHost (githubHost.map Char.toLower) = true))]

theorem deriveSegment_bare {s : Str}
    (hssh : sshMarker.isPrefixOf s = false)
    (hnet : (pyUrlparse s).netloc = []) :
    deriveSegment s = some s := by
  unfold deriveSegment
  rw [if_neg (by simp [hssh])]
  rw [if_neg (by simp [hnet])]

theorem deriveSegment_ssh {s a b : Str}
    (hssh : sshMarker.isPrefixOf s = true)
    (hsf : splitFirst ':' s = some (a, b)) :
    deriveSegment s = some b := by
  unfold deriveSegment
  rw [if_pos (by simp [hssh]), hsf]
  rfl

/-! ### The five accepted reference forms (spec §8, first bullet)

Each form is proved to parse to `(o, r)` under the owner/repo charset:
non-empty names over letters/digits/`-`/`_`/`.`, with the repo name not
itself ending in `.git` (GitHub forbids such repository names). -/

def GoodName (s : Str) : Prop := s ≠ [] ∧ ∀ c ∈ s, goodChar c = true

theorem goodName_no_space {s : Str} (h : GoodName s) :
    ∀ c ∈ s, pyIsSpace c = false :=
  fun c hc => goodChar_not_space (h.2 c hc)

theorem goodName_no_slash {s : Str} (h : GoodName s) : '/' ∉ s :=
  fun hm => (goodChar_ne (h.2 _ hm)).1 rfl

theorem goodName_no_colon {s : Str} (h : GoodName s) : ':' ∉ s :=
  fun hm => (goodChar_ne (h.2 _ hm)).2.1 rfl

theorem gitSuffix_all_good : ∀ c ∈ gitSuffix, goodChar c = true :=
  all_mem_of_literal (by decide)

theorem lstrip_slash_good {o : Str} (rest : Str) (ho : GoodName o) :
    ('/' :: (o ++ rest)).dropWhile (fun c => c == '/') = o ++ rest := by
  rw [List.dropWhile_cons]
  rw [if_pos (by decide)]
  obtain ⟨hne, hall⟩ := ho
  cases o with
  | nil => exact absurd rfl hne
  | cons c o'' =>
    have hc : (c == '/') = false := by
      have := (goodChar_ne (hall c (List.mem_cons_self _ _))).1
      simpa using this
    simp [List.dropWhile_cons, hc]

/-- Common core for the three `https://github.com/...` forms: `X` is
everything after `owner/`, and `comp` is its first `/`-separated
component (the repo component before `.git` stripping). -/
theorem parse_web_gen {o X : Str} (ho : GoodName o)
    (hX : ∀ c ∈ X, goodChar c = true ∨ c = '/')
    {comp : Str} {restParts : List Str}
    (hcsplit : splitOnChar '/' X = comp :: restParts) (hcne : comp ≠ []) :
    parse_github_repo_url ("https://github.com/".toList ++ (o ++ '/' :: X)) =
      .ok (o, stripGitSuffix comp) := by
  have hXspace : ∀ c ∈ X, pyIsSpace c = false := by
    intro c hc
    rcases hX c hc with h1 | h1
    · exact goodChar_not_space h1
    · subst h1; decide
  have hstrip : pyStrip ("https://github.com/".toList ++ (o ++ '/' :: X)) =
      "https://github.com/".toList ++ (o ++ '/' :: X) := by
    apply pyStrip_eq_self
    intro c hc
    rcases List.mem_append.mp hc with h1 | h1
    · have := all_mem_of_literal
        (by decide : ("https://github.com/".toList).all (fun c => !pyIsSpace c) = true) c h1
      simpa using this
    · rcases List.mem_append.mp h1 with h2 | h2
      · exact goodName_no_space ho c h2
      · rcases List.mem_cons.mp h2 with h3 | h3
        · subst h3; decide
        · exact hXspace c h3
  have hssh : sshMarker.isPrefixOf
      ("https://github.com/".toList ++ (o ++ '/' :: X)) = false := rfl
  have hp : ∀ c ∈ o ++ '/' :: X, goodChar c = true ∨ c = '/' := by
    intro c hc
    rcases List.mem_append.mp hc with h1 | h1
    · exact Or.inl (ho.2 c h1)
    · rcases List.mem_cons.mp h1 with h2 | h2
      · exact Or.inr h2
      · exact hX c h2
  have hds := deriveSegment_github hssh (pyUrlparse_https (o ++ '/' :: X) hp)
  rw [lstrip_slash_good ('/' :: X) ho] at hds
  have hne : ¬ ("https://github.com/".toList ++ (o ++ '/' :: X)) = [] := by simp
  have hsplit : splitOnChar '/' (o ++ '/' :: X) = o :: comp :: restParts := by
    rw [splitOnChar_append X (goodName_no_slash ho), hcsplit]
  unfold parse_github_repo_url
  rw [if_neg hne, hstrip, hds]
  simp only [hsplit]
  rw [if_neg (by simp [ho.1, hcne])]

/-- The `https://github.com/o/r` form. -/
theorem parse_webForm {o r : Str} (ho : GoodName o) (hr : GoodName r)
    (hrg : gitSuffix.isSuffixOf r = false) :
    parse_github_repo_url ("https://github.com/".toList ++ (o ++ '/' :: r)) =
      .ok (o, r) := by
  rw [parse_web_gen ho (fun c hc => Or.inl (hr.2 c hc))
        (splitOnChar_not_mem (goodName_no_slash hr)) hr.1,
      stripGitSuffix_eq_self hrg]

/-- The `https://github.com/o/r.git` form. -/
theorem parse_webGitForm {o r : Str} (ho : GoodName o) (hr : GoodName r) :
    parse_github_repo_url
        ("https://github.com/".toList ++ (o ++ '/' :: (r ++ gitSuffix))) =
      .ok (o, r) := by
  have hXgood : ∀ c ∈ r ++ gitSuffix, goodChar c = true ∨ c = '/' := by
    intro c hc
    rcases List.mem_append.mp hc with h1 | h1
    · exact Or.inl (hr.2 c h1)
    · exact Or.inl (gitSuffix_all_good c h1)
  have hnos : '/' ∉ r ++ gitSuffix := by
    intro hm
    rcases List.mem_append.mp hm with h1 | h1
    · exact goodName_no_slash hr h1
    · exact absurd h1 (by decide)
  rw [parse_web_gen ho hXgood (splitOnChar_not_mem hnos) (by simp [gitSuffix]),
      stripGitSuffix_append]

/-- The `https://github.com/o/r/tree/<branch-path>` form. -/
theorem parse_treeForm {o r extra : Str} (ho : GoodName o) (hr : GoodName r)
    (hrg : gitSuffix.isSuffixOf r = false)
    (hex : ∀ c ∈ extra, goodChar c = true ∨ c = '/') :
    parse_github_repo_url
        ("https://github.com/".toList ++
          (o ++ '/' :: (r ++ '/' :: ("tree/".toList ++ extra)))) =
      .ok (o, r) := by
  have hXgood : ∀ c ∈ r ++ '/' :: ("tree/".toList ++ extra),
      goodChar c = true ∨ c = '/' := by
    intro c hc
    rcases List.mem_append.mp hc with h1 | h1
    · exact Or.inl (hr.2 c h1)
    · rcases List.mem_cons.mp h1 with h2 | h2
      · exact Or.inr h2
      · rcases List.mem_append.mp h2 with h3 | h3
        · have := all_mem_of_literal
            (by decide : ("tree/".toList).all
              (fun c => goodChar c || (c == '/')) = true) c h3
          simpa using this
        · exact hex c h3
  rw [parse_web_gen ho hXgood
        (splitOnChar_append _ (goodName_no_slash hr)) hr.1,
      stripGitSuffix_eq_self hrg]

/-- The `git@github.com:o/r.git` SSH form. -/
theorem parse_sshForm {o r : Str} (ho : GoodName o) (hr : GoodName r) :
    parse_github_repo_url
        ("git@github.com:".toList ++ (o ++ '/' :: (r ++ gitSuffix))) =
      .ok (o, r) := by
  have hstrip : pyStrip ("git@github.com:".toList ++ (o ++ '/' :: (r ++ gitSuffix))) =
      "git@github.com:".toList ++ (o ++ '/' :: (r ++ gitSuffix)) := by
    apply pyStrip_eq_self
    intro c hc
    rcases List.mem_append.mp hc with h1 | h1
    · have := all_mem_of_literal
        (by decide : ("git@github.com:".toList).all (fun c => !pyIsSpace c) = true) c h1
      simpa using this
    · rcases List.mem_append.mp h1 with h2 | h2
      · exact goodName_no_space ho c h2
      · rcases List.mem_cons.mp h2 with h3 | h3
        · subst h3; decide
        · rcases List.mem_append.mp h3 with h4 | h4
          · exact goodName_no_space hr c h4
          · exact goodChar_not_space (gitSuffix_all_good c h4)
  have hssh : sshMarker.isPrefixOf
      ("git@github.com:".toList ++ (o ++ '/' :: (r ++ gitSuffix))) = true := rfl
  have hdecomp : "git@github.com:".toList ++ (o ++ '/' :: (r ++ gitSuffix)) =
      "git@github.com".toList ++ ':' :: (o ++ '/' :: (r ++ gitSuffix)) := by simp
  have hsf : splitFirst ':'
      ("git@github.com:".toList ++ (o ++ '/' :: (r ++ gitSuffix))) =
      some ("git@github.com".toList, o ++ '/' :: (r ++ gitSuffix)) := by
    rw [hdecomp]
    exact splitFirst_append _ (by decide)
  have hds := deriveSegment_ssh hssh hsf
  have hnos : '/' ∉ r ++ gitSuffix := by
    intro hm
    rcases List.mem_append.mp hm with h1 | h1
    · exact goodName_no_slash hr h1
    · exact absurd h1 (by decide)
  have hsplit : splitOnChar '/' (o ++ '/' :: (r ++ gitSuffix)) =
      [o, r ++ gitSuffix] := by
    rw [splitOnChar_append _ (goodName_no_slash ho), splitOnChar_not_mem hnos]
  have hne : ¬ ("git@github.com:".toList ++ (o ++ '/' :: (r ++ gitSuffix))) = [] := by
    simp
  unfold parse_github_repo_url
  rw [if_neg hne, hstrip, hds]
  simp only [hsplit]
  rw [if_neg (by simp [ho.1, gitSuffix])]
  rw [stripGitSuffix_append]

/-- The bare `o/r` shorthand. -/
theorem parse_bareForm {o r : Str} (ho : GoodName o) (hr : GoodName r)
    (hrg : gitSuffix.isSuffixOf r = false) :
    parse_github_repo_url (o ++ '/' :: r) = .ok (o, r) := by
  have hat : '@' ∉ o ++ '/' :: r := by
    intro hm
    rcases List.mem_append.mp hm with h1 | h1
    · exact (goodChar_ne (ho.2 _ h1)).2.2.1 rfl
    · rcases List.mem_cons.mp h1 with h2 | h2
      · exact absurd h2 (by decide)
      · exact (goodChar_ne (hr.2 _ h2)).2.2.1 rfl
  have hssh : sshMarker.isPrefixOf (o ++ '/' :: r) = false := by
    cases hp : sshMarker.isPrefixOf (o ++ '/' :: r) with
    | false => rfl
    | true =>
      exfalso
      have hpre : sshMarker <+: (o ++ '/' :: r) := List.isPrefixOf_iff_prefix.mp hp
      exact hat (hpre.subset (by decide))
  have hstrip : pyStrip (o ++ '/' :: r) = o ++ '/' :: r := by
    apply pyStrip_eq_self
    intro c hc
    rcases List.mem_append.mp hc with h1 | h1
    · exact goodName_no_space ho c h1
    · rcases List.mem_cons.mp h1 with h2 | h2
      · subst h2; decide
      · exact goodName_no_space hr c h2
  have hcolon : ':' ∉ o ++ '/' :: r := by
    intro hm
    rcases List.mem_append.mp hm with h1 | h1
    · exact goodName_no_colon ho h1
    · rcases List.mem_cons.mp h1 with h2 | h2
      · exact absurd h2 (by decide)
      · exact goodName_no_colon hr h2
  have hrm : removeUnsafe (o ++ '/' :: r) = o ++ '/' :: r := by
    unfold removeUnsafe
    rw [List.filter_eq_self]
    intro c hc
    rcases List.mem_append.mp hc with h1 | h1
    · obtain ⟨_, _, _, _, _, _, h7, h8, h9⟩ := goodChar_ne (ho.2 c h1)
      simp [h7, h8, h9]
    · rcases List.mem_cons.mp h1 with h2 | h2
      · subst h2; decide
      · obtain ⟨_, _, _, _, _, _, h7, h8, h9⟩ := goodChar_ne (hr.2 c h2)
        simp [h7, h8, h9]
  obtain ⟨hone, hoall⟩ := ho
  have hnet : (pyUrlparse (o ++ '/' :: r)).netloc = [] := by
    apply pyUrlparse_netloc_nil hrm (splitFirst_eq_none hcolon)
    cases o with
    | nil => exact absurd rfl hone
    | cons c o'' =>
      have hcneq : ('/' == c) = false := by
        have := (goodChar_ne (hoall c (List.mem_cons_self _ _))).1
        simp [Ne.symm this]
      simp [List.cons_append, List.isPrefixOf, hcneq]
  have hds := deriveSegment_bare hssh hnet
  have hsplit : splitOnChar '/' (o ++ '/' :: r) = [o, r] := by
    rw [splitOnChar_append _ (goodName_no_slash ⟨hone, hoall⟩),
        splitOnChar_not_mem (goodName_no_slash hr)]
  have hne : ¬ (o ++ '/' :: r) = [] := by simp
  unfold parse_github_repo_url
  rw [if_neg hne, hstrip, hds]
  simp only [hsplit]
  rw [if_neg (by simp [hone, hr.1])]
  rw [stripGitSuffix_eq_self hrg]

theorem deriveSegment_none_iff {s : Str} :
    deriveSegment s = none ↔
      sshMarker.isPrefixOf s = true ∧ splitFirst ':' s = none := by
  by_cases hssh : sshMarker.isPrefixOf s = true
  · unfold deriveSegment
    rw [if_pos hssh]
    simp [hssh, Option.map_eq_none']
  · have hd : deriveSegment s ≠ none := by
      unfold deriveSegment
      rw [if_neg hssh]
      dsimp only
      split <;> simp
    constructor
    · intro h; exact absurd h hd
    · intro h; exact absurd h.1 hssh

theorem parse_ok_of_parts {url seg p0 p1 : Str} {rest : List Str}
    (hu : url ≠ []) (hds : deriveSegment (pyStrip url) = some seg)
    (hsp : splitOnChar '/' seg = p0 :: p1 :: rest)
    (h0 : p0 ≠ []) (h1 : p1 ≠ []) :
    parse_github_repo_url url = .ok (p0, stripGitSuffix p1) := by
  unfold parse_github_repo_url
  rw [if_neg hu, hds]
  simp only [hsp]
  rw [if_neg (by simp [h0, h1])]

theorem parse_error_iff (url : Str) :
    parse_github_repo_url url = .error .invalidReference ↔
      url = [] ∨
      (sshMarker.isPrefixOf (pyStrip url) = true ∧
        splitFirst ':' (pyStrip url) = none) ∨
      (∃ seg, deriveSegment (pyStrip url) = some seg ∧
        ((splitOnChar '/' seg).length < 2 ∨
         (splitOnChar '/' seg).getD 0 [] = [] ∨
         (splitOnChar '/' seg).getD 1 [] = [])) := by
  by_cases hu : url = []
  · simp [parse_github_repo_url, hu]
  · cases hds : deriveSegment (pyStrip url) with
    | none =>
      have herr : parse_github_repo_url url = .error .invalidReference := by
        unfold parse_github_repo_url
        rw [if_neg hu, hds]
      rw [herr]
      simp only [true_iff]
      exact Or.inr (Or.inl (deriveSegment_none_iff.mp hds))
    | some seg =>
      cases hsp : splitOnChar '/' seg with
      | nil => exact absurd hsp (splitOnChar_ne_nil _ _)
      | cons p0 tail =>
        cases tail with
        | nil =>
          have herr : parse_github_repo_url url = .error .invalidReference := by
            unfold parse_github_repo_url
            rw [if_neg hu, hds]
            simp only [hsp]
          rw [herr]
          simp only [true_iff]
          exact Or.inr (Or.inr ⟨seg, rfl, Or.inl (by rw [hsp]; simp)⟩)
        | cons p1 rest =>
          by_cases h01 : p0 = [] ∨ p1 = []
          · have herr : parse_github_repo_url url = .error .invalidReference := by
              unfold parse_github_repo_url
              rw [if_neg hu, hds]
              simp only [hsp]
              rw [if_pos h01]
            rw [herr]
            simp only [true_iff]
            refine Or.inr (Or.inr ⟨seg, rfl, ?_⟩)
            rcases h01 with h | h
            · exact Or.inr (Or.inl (by rw [hsp]; simpa using h))
            · exact Or.inr (Or.inr (by rw [hsp]; simpa using h))
          · have hok := parse_ok_of_parts hu hds hsp
              (not_or.mp h01).1 (not_or.mp h01).2
            rw [hok]
            constructor
            · intro h; exact absurd h (by simp)
            · intro hrhs
              exfalso
              rcases hrhs with h | h | h
              · exact hu h
              · exact absurd (deriveSegment_none_iff.mpr h) (by rw [hds]; simp)
              · obtain ⟨seg', hseg', hbad⟩ := h
                injection hseg' with he
                rw [← he, hsp] at hbad
                rcases hbad with h | h | h
                · simp at h; omega
                · simp at h; exact (not_or.mp h01).1 h
                · simp at h; exact (not_or.mp h01).2 h

/-! ### Claim theorems for the parser (C4, C5, C8, C10) -/

/-- Claim C4, counterexample.  The claim says the parser fails with
`InvalidReference` exactly when the input is empty, the derived segment
has fewer than two non-empty slash-separated components, or either
component is empty after stripping a trailing `.git`, and otherwise
returns the first two non-empty components.  Both directions fail on the
code: `a/.git` has two non-empty components whose second strips to
empty, so the claim demands failure, yet the parser accepts it and
returns an empty repo name; `/a/b` has two non-empty components (`a`,
`b`), so the claim demands success `(a, b)`, yet the parser rejects it
because it inspects the positionally first two components. -/
theorem claim_C4_counterexample :
    parse_github_repo_url ('a' :: '/' :: gitSuffix) = .ok (['a'], []) ∧
    parse_github_repo_url "/a/b".toList = .error .invalidReference := by
  constructor
  · rfl
  · rfl

/-- Claim C4, amended.  The parser fails with `InvalidReference` exactly
when the input is empty, when the input starts with `git@` but contains
no colon, or when the derived segment's positionally first two
slash-separated parts are missing or empty (before any `.git`
stripping); otherwise it returns the first part as owner and the second
part with one trailing `.git` suffix removed as repo (which may leave an
empty or `.git`-suffixed repo name). -/
theorem claim_C4_parser_failure_characterization (url : Str) :
    (parse_github_repo_url url = .error .invalidReference ↔
      url = [] ∨
      (sshMarker.isPrefixOf (pyStrip url) = true ∧
        splitFirst ':' (pyStrip url) = none) ∨
      (∃ seg, deriveSegment (pyStrip url) = some seg ∧
        ((splitOnChar '/' seg).length < 2 ∨
         (splitOnChar '/' seg).getD 0 [] = [] ∨
         (splitOnChar '/' seg).getD 1 [] = []))) ∧
    (∀ seg p0 p1 rest, url ≠ [] →
      deriveSegment (pyStrip url) = some seg →
      splitOnChar '/' seg = p0 :: p1 :: rest →
      p0 ≠ [] → p1 ≠ [] →
      parse_github_repo_url url = .ok (p0, stripGitSuffix p1)) :=
  ⟨parse_error_iff url,
   fun _ _ _ _ hu hds hsp h0 h1 => parse_ok_of_parts hu hds hsp h0 h1⟩

/-- Claim C4 witness: the amended success clause applied to `a/b`. -/
theorem claim_C4_witness :
    parse_github_repo_url "a/b".toList =
      .ok ("a".toList, stripGitSuffix "b".toList) :=
  (claim_C4_parser_failure_characterization "a/b".toList).2
    "a/b".toList "a".toList "b".toList [] (by decide) (by rfl) (by rfl)
    (by decide) (by decide)

/-- Claim C5: for every well-formed owner `o` and repo `r` (non-empty
names over the GitHub name charset, the repo name not itself ending in
`.git`), the five accepted reference forms `https://github.com/o/r`,
`https://github.com/o/r.git`, `https://github.com/o/r/tree/<branch>`,
`git@github.com:o/r.git` and the bare `o/r` all parse to the identical
result `(o, r)`. -/
theorem claim_C5_five_forms_identical (o r extra : Str)
    (ho : GoodName o) (hr : GoodName r)
    (hrg : gitSuffix.isSuffixOf r = false)
    (hex : ∀ c ∈ extra, goodChar c = true ∨ c = '/') :
    parse_github_repo_url
        ("https://github.com/".toList ++ (o ++ '/' :: r)) = .ok (o, r) ∧
    parse_github_repo_url
        ("https://github.com/".toList ++ (o ++ '/' :: (r ++ gitSuffix))) =
      .ok (o, r) ∧
    parse_github_repo_url
        ("https://github.com/".toList ++
          (o ++ '/' :: (r ++ '/' :: ("tree/".toList ++ extra)))) = .ok (o, r) ∧
    parse_github_repo_url
        ("git@github.com:".toList ++ (o ++ '/' :: (r ++ gitSuffix))) =
      .ok (o, r) ∧
    parse_github_repo_url (o ++ '/' :: r) = .ok (o, r) :=
  ⟨parse_webForm ho hr hrg, parse_webGitForm ho hr,
   parse_treeForm ho hr hrg hex, parse_sshForm ho hr, parse_bareForm ho hr hrg⟩

/-- Claim C5 witness: the five forms instantiated at owner `octo`, repo
`hello`, branch path `main/src`. -/
theorem claim_C5_witness :
    parse_github_repo_url
        ("https://github.com/".toList ++
          ("octo".toList ++ '/' :: "hello".toList)) =
      .ok ("octo".toList, "hello".toList) ∧
    parse_github_repo_url
        ("https://github.com/".toList ++
          ("octo".toList ++ '/' :: ("hello".toList ++ gitSuffix))) =
      .ok ("octo".toList, "hello".toList) ∧
    parse_github_repo_url
        ("https://github.com/".toList ++
          ("octo".toList ++ '/' ::
            ("hello".toList ++ '/' :: ("tree/".toList ++ "main/src".toList)))) =
      .ok ("octo".toList, "hello".toList) ∧
    parse_github_repo_url
        ("git@github.com:".toList ++
          ("octo".toList ++ '/' :: ("hello".toList ++ gitSuffix))) =
      .ok ("octo".toList, "hello".toList) ∧
    parse_github_repo_url ("octo".toList ++ '/' :: "hello".toList) =
      .ok ("octo".toList, "hello".toList) :=
  claim_C5_five_forms_identical "octo".toList "hello".toList "main/src".toList
    ⟨by decide, by decide⟩ ⟨by decide, by decide⟩ (by decide) (by decide)

/-- Claim C8, counterexample.  The claim says every parser result has a
non-empty repo name that never ends in `.git`.  The code strips exactly
one `.git` suffix and never re-checks emptiness: `b/.git` parses to an
empty repo name, and `o/x.git.git` parses to the repo name `x.git`,
which still carries the archive suffix. -/
theorem claim_C8_counterexample :
    parse_github_repo_url ('b' :: '/' :: gitSuffix) = .ok (['b'], []) ∧
    parse_github_repo_url "o/x.git.git".toList =
      .ok ("o".toList, "x.git".toList) ∧
    gitSuffix.isSuffixOf "x.git".toList = true := by
  refine ⟨rfl, rfl, by decide⟩

/-- Claim C8, amended.  Every successful parse has a non-empty owner,
and its repo name is some non-empty slash-separated component with one
trailing `.git` suffix stripped — which may leave the repo name empty
(component `.git`) or still `.git`-suffixed (component ending in
`.git.git`). -/
theorem claim_C8_repo_ref_invariant (url o n : Str)
    (h : parse_github_repo_url url = .ok (o, n)) :
    o ≠ [] ∧ ∃ p1, p1 ≠ [] ∧ n = stripGitSuffix p1 := by
  unfold parse_github_repo_url at h
  by_cases hu : url = []
  · rw [if_pos hu] at h; exact absurd h (by simp)
  · rw [if_neg hu] at h
    cases hds : deriveSegment (pyStrip url) with
    | none => rw [hds] at h; exact absurd h (by simp)
    | some seg =>
      rw [hds] at h
      cases hsp : splitOnChar '/' seg with
      | nil => exact absurd hsp (splitOnChar_ne_nil _ _)
      | cons p0 tail =>
        cases tail with
        | nil =>
          simp only [hsp] at h
          exact absurd h (by simp)
        | cons p1 rest =>
          simp only [hsp] at h
          by_cases h01 : p0 = [] ∨ p1 = []
          · rw [if_pos h01] at h; exact absurd h (by simp)
          · rw [if_neg h01] at h
            have hinj : p0 = o ∧ stripGitSuffix p1 = n := by simpa using h
            exact ⟨hinj.1 ▸ (not_or.mp h01).1, p1, (not_or.mp h01).2,
              hinj.2.symm⟩

/-- Claim C8 witness: the invariant applied to the parse of `a/b`. -/
theorem claim_C8_witness :
    "a".toList ≠ [] ∧ ∃ p1, p1 ≠ [] ∧ "b".toList = stripGitSuffix p1 :=
  claim_C8_repo_ref_invariant "a/b".toList "a".toList "b".toList (by rfl)

/-- Claim C10: for every non-empty input, the parser yields the same
result on the input and on the input with surrounding whitespace
stripped. -/
theorem claim_C10_strip_invariance (s : Str) (h : s ≠ []) :
    parse_github_repo_url s = parse_github_repo_url (pyStrip s) := by
  by_cases hs : pyStrip s = []
  · unfold parse_github_repo_url
    rw [if_neg h, hs]
    rfl
  · unfold parse_github_repo_url
    rw [if_neg h, if_neg hs, pyStrip_idem]

/-- Claim C10 witness: strip invariance at a concrete padded input. -/
theorem claim_C10_witness :
    parse_github_repo_url "  a/b ".toList =
      parse_github_repo_url (pyStrip "  a/b ".toList) :=
  claim_C10_strip_invariance "  a/b ".toList (by decide)

/-! ### `_fetch_contents_recursive` (src/backend/main.py lines 83-128)

The GitHub contents API is represented by the tree of responses it would
return: a response carries the HTTP status, the optional
`X-RateLimit-Reset` header value, and a body that is either a single
JSON object (a path pointing directly at a file) or a list of entries.
Each listed entry records its `type`, `name`, optional `path` and
optional `download_url` fields; a `dir` entry additionally carries the
response the API would give for its own sub-path, which is what the
recursive call consumes. -/

mutual

inductive Resp where
  | mk (status : Nat) (reset : Option Nat) (body : Body)

inductive Body where
  | singleObj (typ : String) (name : String) (path : Option String)
      (dl : Option String)
  | listing (items : List Item)

inductive Item where
  | mk (typ : String) (name : String) (path : Option String)
      (dl : Option String) (sub : Resp)

end

/-- One record of the enumerator's result list:
`{"name": ..., "path": item.get("path", name), "download_url": ...}`. -/
structure FileEntry where
  name : String
  path : String
  download_url : Option String
deriving DecidableEq, Repr

/-- Failures raised by `_fetch_contents_recursive`:
`notFound` is `HTTPException(404, "Repository or path not found")`;
`rateLimited reset` is `HTTPException(403, detail)` where the detail
embeds the formatted reset time exactly when the header value `reset`
was present; `upstream s` is `HTTPException(s, "GitHub API error")`;
`pyFault` models the `AttributeError` the Python would raise when a
single-object response is not of type `file` (iterating a dict yields
strings). -/
inductive FetchErr where
  | notFound
  | rateLimited (reset : Option Nat)
  | upstream (status : Nat)
  | pyFault
deriving DecidableEq, Repr

mutual

/-- Lines 83-128: status checks, the single-file short-circuit, and the
loop over listed entries. -/
def fetchContents : Resp → Except FetchErr (List FileEntry)
  | .mk status reset body =>
    if status = 404 then .error .notFound
    else if status = 403 then .error (.rateLimited reset)
    else if status ≠ 200 then .error (.upstream status)
    else
      match body with
      | .singleObj typ name path dl =>
        if typ = "file" then .ok [⟨name, path.getD name, dl⟩]
        else .error .pyFault
      | .listing items => fetchItems items

/-- The `for item in items` loop: `file` entries are appended, `dir`
entries are recursed into with the result extended in place, all other
types fall through. -/
def fetchItems : List Item → Except FetchErr (List FileEntry)
  | [] => .ok []
  | .mk typ name path dl sub :: rest =>
    if typ = "file" then
      match fetchItems rest with
      | .error e => .error e
      | .ok fs => .ok (⟨name, path.getD name, dl⟩ :: fs)
    else if typ = "dir" then
      match fetchContents sub with
      | .error e => .error e
      | .ok subFiles =>
        match fetchItems rest with
        | .error e => .error e
        | .ok fs => .ok (subFiles ++ fs)
    else fetchItems rest

end

mutual

/-- Specification companion of `fetchContents`: the regular files of the
response tree in depth-first upstream order, ignoring statuses. -/
def filesOf : Resp → List FileEntry
  | .mk _ _ body =>
    match body with
    | .singleObj typ name path dl =>
      if typ = "file" then [⟨name, path.getD name, dl⟩] else []
    | .listing items => filesOfItems items

def filesOfItems : List Item → List FileEntry
  | [] => []
  | .mk typ name path dl sub :: rest =>
    if typ = "file" then ⟨name, path.getD name, dl⟩ :: filesOfItems rest
    else if typ = "dir" then filesOf sub ++ filesOfItems rest
    else filesOfItems rest

end

mutual

/-- Number of regular-file nodes in the response tree. -/
def countFiles : Resp → Nat
  | .mk _ _ body =>
    match body with
    | .singleObj typ _ _ _ => if typ = "file" then 1 else 0
    | .listing items => countItems items

def countItems : List Item → Nat
  | [] => 0
  | .mk typ _ _ _ sub :: rest =>
    if typ = "file" then countItems rest + 1
    else if typ = "dir" then countFiles sub + countItems rest
    else countItems rest

end

mutual

theorem fetchContents_ok_eq : ∀ (r : Resp) (l : List FileEntry),
    fetchContents r = .ok l → l = filesOf r
  | .mk status reset body, l, h => by
    unfold fetchContents at h
    by_cases h404 : status = 404
    · rw [if_pos h404] at h; exact absurd h (by simp)
    · rw [if_neg h404] at h
      by_cases h403 : status = 403
      · rw [if_pos h403] at h; exact absurd h (by simp)
      · rw [if_neg h403] at h
        by_cases h200 : status ≠ 200
        · rw [if_pos h200] at h; exact absurd h (by simp)
        · rw [if_neg h200] at h
          cases body with
          | singleObj typ name path dl =>
            replace h : (if typ = "file"
                then Except.ok [(⟨name, path.getD name, dl⟩ : FileEntry)]
                else Except.error FetchErr.pyFault) = Except.ok l := h
            by_cases ht : typ = "file"
            · rw [if_pos ht] at h
              have hl : l = [⟨name, path.getD name, dl⟩] := by
                simpa using h.symm
              simp [filesOf, ht, hl]
            · rw [if_neg ht] at h; exact absurd h (by simp)
          | listing items =>
            have := fetchItems_ok_eq items _ h
            simpa [filesOf] using this

theorem fetchItems_ok_eq : ∀ (its : List Item) (l : List FileEntry),
    fetchItems its = .ok l → l = filesOfItems its
  | [], l, h => by
    have hl : l = [] := by simpa [fetchItems] using h.symm
    simp [filesOfItems, hl]
  | .mk typ name path dl sub :: rest, l, h => by
    unfold fetchItems at h
    by_cases htf : typ = "file"
    · rw [if_pos htf] at h
      cases hrest : fetchItems rest with
      | error e => simp only [hrest] at h; exact absurd h (by simp)
      | ok fs =>
        simp only [hrest] at h
        have hfs := fetchItems_ok_eq rest _ hrest
        have hl : l = ⟨name, path.getD name, dl⟩ :: fs := by simpa using h.symm
        simp [filesOfItems, htf, hl, hfs]
    · rw [if_neg htf] at h
      by_cases htd : typ = "dir"
      · rw [if_pos htd] at h
        cases hsub : fetchContents sub with
        | error e => simp only [hsub] at h; exact absurd h (by simp)
        | ok sf =>
          simp only [hsub] at h
          cases hrest : fetchItems rest with
          | error e => simp only [hrest] at h; exact absurd h (by simp)
          | ok fs =>
            simp only [hrest] at h
            have h1 := fetchContents_ok_eq sub _ hsub
            have h2 := fetchItems_ok_eq rest _ hrest
            have hl : l = sf ++ fs := by simpa using h.symm
            simp [filesOfItems, htf, htd, hl, h1, h2]
      · rw [if_neg htd] at h
        have := fetchItems_ok_eq rest _ h
        simp [filesOfItems, htf, htd, this]

end

mutual

theorem filesOf_length : ∀ (r : Resp), (filesOf r).length = countFiles r
  | .mk status reset body => by
    cases body with
    | singleObj typ name path dl =>
      by_cases ht : typ = "file" <;> simp [filesOf, countFiles, ht]
    | listing items =>
      simpa [filesOf, countFiles] using filesOfItems_length items

theorem filesOfItems_length : ∀ (its : List Item),
    (filesOfItems its).length = countItems its
  | [] => by simp [filesOfItems, countItems]
  | .mk typ name path dl sub :: rest => by
    by_cases htf : typ = "file"
    · simp [filesOfItems, countItems, htf, filesOfItems_length rest]
    · by_cases htd : typ = "dir"
      · simp [filesOfItems, countItems, htf, htd, filesOf_length sub,
          filesOfItems_length rest]
      · simp [filesOfItems, countItems, htf, htd, filesOfItems_length rest]

end

/-! ### Claim theorems for the enumerator (C3, C7) -/

/-- Claim C3: whenever the enumerator succeeds, its output is exactly
the depth-first list of regular-file entries of the response tree —
`file` entries emitted in place, `dir` entries replaced by their
recursive enumeration, every other entry type silently dropped (so
directory entries never appear), with exactly as many records as there
are regular files; and a response that is a single `file` object yields
the one-element list. -/
theorem claim_C3_enumerator_exactly_files :
    (∀ (r : Resp) (l : List FileEntry), fetchContents r = .ok l →
      l = filesOf r ∧ l.length = countFiles r) ∧
    (∀ (reset : Option Nat) (name : String) (path dl : Option String),
      fetchContents (.mk 200 reset (.singleObj "file" name path dl)) =
        .ok [⟨name, path.getD name, dl⟩]) := by
  constructor
  · intro r l h
    refine ⟨fetchContents_ok_eq r l h, ?_⟩
    rw [fetchContents_ok_eq r l h, filesOf_length]
  · intro reset name path dl
    rfl

/-- Sample response tree for the C3 witness: two regular files (one
nested in a directory), one symlink entry that must be ignored. -/
def sampleResp : Resp :=
  .mk 200 none (.listing
    [ .mk "file" "a.txt" (some "a.txt") (some "u1") (.mk 200 none (.listing []))
    , .mk "dir" "d" (some "d") none
        (.mk 200 none (.listing
          [ .mk "file" "b.txt" (some "d/b.txt") (some "u2")
              (.mk 200 none (.listing [])) ]))
    , .mk "symlink" "s" (some "s") none (.mk 200 none (.listing [])) ])

/-- Claim C3 witness: the enumeration of `sampleResp` is exactly its
two regular files, in depth-first order. -/
theorem claim_C3_witness :
    [(⟨"a.txt", "a.txt", some "u1"⟩ : FileEntry),
     ⟨"b.txt", "d/b.txt", some "u2"⟩] = filesOf sampleResp ∧
    [(⟨"a.txt", "a.txt", some "u1"⟩ : FileEntry),
     ⟨"b.txt", "d/b.txt", some "u2"⟩].length = countFiles sampleResp :=
  claim_C3_enumerator_exactly_files.1 sampleResp
    [⟨"a.txt", "a.txt", some "u1"⟩, ⟨"b.txt", "d/b.txt", some "u2"⟩] rfl

/-- Claim C7: the enumerator maps upstream statuses to errors exactly
as the source does — 404 to `notFound`, 403 to `rateLimited` carrying
the reset header value precisely when present, and any other non-200
status to `upstream` carrying that status; the response is consulted
once per path, with no retry. -/
theorem claim_C7_enumerator_error_mapping (status : Nat)
    (reset : Option Nat) (body : Body) :
    (status = 404 →
      fetchContents (.mk status reset body) = .error .notFound) ∧
    (status = 403 →
      fetchContents (.mk status reset body) = .error (.rateLimited reset)) ∧
    (status ≠ 404 → status ≠ 403 → status ≠ 200 →
      fetchContents (.mk status reset body) = .error (.upstream status)) := by
  refine ⟨?_, ?_, ?_⟩
  · intro h; subst h; rfl
  · intro h; subst h; rfl
  · intro h1 h2 h3
    unfold fetchContents
    rw [if_neg h1, if_neg h2, if_pos h3]

/-- Claim C7 witness: the three error mappings at statuses 404, 403
(with a reset header) and 500. -/
theorem claim_C7_witness :
    fetchContents (.mk 404 (some 7) (.listing [])) = .error .notFound ∧
    fetchContents (.mk 403 (some 7) (.listing [])) =
      .error (.rateLimited (some 7)) ∧
    fetchContents (.mk 500 none (.listing [])) = .error (.upstream 500) :=
  ⟨(claim_C7_enumerator_error_mapping 404 (some 7) (.listing [])).1 rfl,
   (claim_C7_enumerator_error_mapping 403 (some 7) (.listing [])).2.1 rfl,
   (claim_C7_enumerator_error_mapping 500 none (.listing [])).2.2
     (by decide) (by decide) (by decide)⟩

/-! ### `download_all_files` (src/backend/main.py lines 162-194)

The outbound HTTP client is a function from a URL to a response with a
status and a body; the zip archive is the list of `(arcname, bytes)`
entries in the order `writestr` appends them.  A raised
`HTTPException` discards the in-memory buffer, which is the error side
of the `Except`. -/

/-- Response of `session.get` on a raw-content URL. -/
structure ContentResp where
  status : Nat
  content : String
deriving DecidableEq, Repr

/-- Failures raised by `download_all_files`:
`emptyRepository` is `HTTPException(404, "No files found in repository")`
and `rateLimitedAbort` is `HTTPException(403, "Forbidden when fetching
file. Provide GITHUB_TOKEN if needed.")`. -/
inductive ZipErr where
  | emptyRepository
  | rateLimitedAbort
deriving DecidableEq, Repr

/-- Lines 176-187, the `for file in file_list` loop: entries without a
`download_url` are skipped, a 403 fetch aborts everything, any other
non-200 fetch skips the file, and a 200 fetch appends `(path, bytes)`
to the archive. -/
def zipLoop (fetch : String → ContentResp) :
    List FileEntry → Except ZipErr (List (String × String))
  | [] => .ok []
  | f :: rest =>
    match f.download_url with
    | none => zipLoop fetch rest
    | some u =>
      let resp := fetch u
      if resp.status = 403 then .error .rateLimitedAbort
      else if resp.status ≠ 200 then zipLoop fetch rest
      else
        match zipLoop fetch rest with
        | .error e => .error e
        | .ok entries => .ok ((f.path, resp.content) :: entries)

/-- Lines 162-194: the empty-list check followed by the zip loop; on
success the finalized archive is the list of written entries. -/
def download_all_files (fetch : String → ContentResp)
    (file_list : List FileEntry) : Except ZipErr (List (String × String)) :=
  if file_list = [] then .error .emptyRepository
  else zipLoop fetch file_list

/-! ### `download_file` (src/backend/main.py lines 142-159) -/

/-- Failures raised by `download_file`: `invalidSource` is
`HTTPException(400, "Invalid download URL")`, `forbidden` is
`HTTPException(403, ...)`, and `fileNotFound s` is
`HTTPException(s, "File not found")` — the upstream status is passed
through. -/
inductive DlfErr where
  | invalidSource
  | forbidden
  | fileNotFound (upstreamStatus : Nat)
deriving DecidableEq, Repr

/-- HTTP status of the raised `HTTPException`. -/
def DlfErr.httpStatus : DlfErr → Nat
  | .invalidSource => 400
  | .forbidden => 403
  | .fileNotFound s => s

/-- The trusted raw-content host check of line 147. -/
def trustedHost : String := "https://raw.githubusercontent.com/"

/-- Lines 142-159: host check, fetch, status mapping, and the
attachment named by the URL's final path segment.  The success value is
the `(filename, bytes)` relayed to the client. -/
def download_file (fetch : String → ContentResp) (url : String) :
    Except DlfErr (String × String) :=
  if ¬ trustedHost.toList.isPrefixOf url.toList then .error .invalidSource
  else
    let resp := fetch url
    if resp.status = 403 then .error .forbidden
    else if resp.status ≠ 200 then .error (.fileNotFound resp.status)
    else .ok ((url.splitOn "/").getLastD "", resp.content)

theorem zipLoop_forbidden {fetch : String → ContentResp} {e : FileEntry}
    {u : String} (hu : e.download_url = some u)
    (h403 : (fetch u).status = 403) :
    ∀ l, e ∈ l → zipLoop fetch l = .error .rateLimitedAbort := by
  intro l
  induction l with
  | nil => intro he; simp at he
  | cons f rest ih =>
    intro he
    unfold zipLoop
    cases hdl : f.download_url with
    | none =>
      rcases List.mem_cons.mp he with rfl | hm
      · rw [hdl] at hu; exact absurd hu (by simp)
      · simp only []
        exact ih hm
    | some u' =>
      simp only []
      by_cases h4 : (fetch u').status = 403
      · rw [if_pos h4]
      · rw [if_neg h4]
        have hm : e ∈ rest := by
          rcases List.mem_cons.mp he with rfl | hm
          · rw [hdl] at hu
            injection hu with hu'
            subst hu'
            exact absurd h403 h4
          · exact hm
        by_cases h2 : (fetch u').status ≠ 200
        · rw [if_pos h2]; exact ih hm
        · rw [if_neg h2, ih hm]

/-! ### Claim theorems for the archive assembler (C1, C2, C6) -/

/-- Claim C1: on a non-empty file list, if any listed file has a
content URL whose fetch returns 403, the assembler aborts with the
rate-limited error — the whole result is the error, so no archive
bytes (not even the entries appended before the forbidden fetch) are
released. -/
theorem claim_C1_forbidden_aborts_assembly (fetch : String → ContentResp)
    (l : List FileEntry) (hne : l ≠ []) (e : FileEntry) (he : e ∈ l)
    (u : String) (hu : e.download_url = some u)
    (h403 : (fetch u).status = 403) :
    download_all_files fetch l = .error .rateLimitedAbort := by
  unfold download_all_files
  rw [if_neg hne]
  exact zipLoop_forbidden hu h403 l he

/-- Claim C1 witness: a two-file list whose second fetch is forbidden
aborts even though the first file was fetchable. -/
theorem claim_C1_witness :
    download_all_files (fun u => if u = "u2" then ⟨403, ""⟩ else ⟨200, "x"⟩)
      [⟨"f1", "p1", some "u1"⟩, ⟨"f2", "p2", some "u2"⟩] =
      .error .rateLimitedAbort :=
  claim_C1_forbidden_aborts_assembly _ _ (by simp)
    ⟨"f2", "p2", some "u2"⟩ (by simp) "u2" rfl rfl

/-- Claim C2, counterexample.  The claim adds that the assembler never
silently produces a zero-entry archive for any input list, but a
non-empty list whose only entry has no content URL passes the
emptiness check and every entry is skipped, so the code streams an
archive with zero entries. -/
theorem claim_C2_counterexample :
    download_all_files (fun _ => ⟨200, ""⟩) [⟨"a", "a", none⟩] = .ok [] := rfl

/-- Claim C2, amended.  The assembler fails with `EmptyRepository`
(HTTP 404) exactly on the empty enumerated list; for a non-empty list
in which every file is skipped it still produces a zero-entry archive. -/
theorem claim_C2_empty_repository (fetch : String → ContentResp) :
    download_all_files fetch [] = .error .emptyRepository := rfl

/-- Claim C2 witness: the empty-list failure under a concrete client. -/
theorem claim_C2_witness :
    download_all_files (fun _ => ⟨200, ""⟩) [] = .error .emptyRepository :=
  claim_C2_empty_repository (fun _ => ⟨200, ""⟩)

/-- Claim C6, counterexample.  The claim's concrete scenario — one
unfetchable (404) file among three fetchable ones — has four files, so
the produced archive has three entries, not the claimed two. -/
theorem claim_C6_counterexample :
    download_all_files (fun u => if u = "u2" then ⟨404, ""⟩ else ⟨200, u⟩)
      [⟨"f1", "p1", some "u1"⟩, ⟨"f2", "p2", some "u2"⟩,
       ⟨"f3", "p3", some "u3"⟩, ⟨"f4", "p4", some "u4"⟩] =
      .ok [("p1", "u1"), ("p3", "u3"), ("p4", "u4")] ∧
    ([("p1", "u1"), ("p3", "u3"), ("p4", "u4")] :
      List (String × String)).length = 3 := ⟨rfl, rfl⟩

/-- Claim C6, amended.  During archive assembly a `FileEntry` with no
content URL is skipped, and a per-file fetch returning any non-success
status other than 403 skips that file while assembly continues; in
particular, one unfetchable (404) file among three fetchable ones
produces an archive with exactly three entries, each named by its
file's relative path. -/
theorem claim_C6_skip_and_continue :
    (∀ (fetch : String → ContentResp) (e : FileEntry) (l : List FileEntry),
      e.download_url = none → zipLoop fetch (e :: l) = zipLoop fetch l) ∧
    (∀ (fetch : String → ContentResp) (e : FileEntry) (l : List FileEntry)
      (u : String), e.download_url = some u →
      (fetch u).status ≠ 403 → (fetch u).status ≠ 200 →
      zipLoop fetch (e :: l) = zipLoop fetch l) ∧
    download_all_files (fun u => if u = "u2" then ⟨404, ""⟩ else ⟨200, u⟩)
      [⟨"f1", "p1", some "u1"⟩, ⟨"f2", "p2", some "u2"⟩,
       ⟨"f3", "p3", some "u3"⟩, ⟨"f4", "p4", some "u4"⟩] =
      .ok [("p1", "u1"), ("p3", "u3"), ("p4", "u4")] := by
  refine ⟨?_, ?_, rfl⟩
  · intro fetch e l h
    conv_lhs => unfold zipLoop
    simp only [h]
  · intro fetch e l u h h403 h200
    conv_lhs => unfold zipLoop
    simp only [h]
    rw [if_neg h403, if_pos h200]

/-- Claim C6 witness: a skipped 500-status file leaves the loop result
unchanged. -/
theorem claim_C6_witness :
    zipLoop (fun _ => ⟨500, ""⟩) [⟨"a", "a", some "u"⟩] =
      zipLoop (fun _ => ⟨500, ""⟩) [] :=
  claim_C6_skip_and_continue.2.1 _ ⟨"a", "a", some "u"⟩ [] "u" rfl
    (by decide) (by decide)

/-! ### Claim theorems for the single-file downloader (C9) -/

/-- Claim C9, counterexample.  The claim says any non-success,
non-forbidden upstream status fails with `NotFound` — in the spec's
taxonomy an HTTP 404 — but the code raises
`HTTPException(resp.status_code, "File not found")`, passing the
upstream status through: an upstream 500 on a trusted URL surfaces as
HTTP 500, not 404. -/
theorem claim_C9_counterexample :
    download_file (fun _ => ⟨500, ""⟩)
      "https://raw.githubusercontent.com/a/b" =
      .error (.fileNotFound 500) ∧
    (DlfErr.fileNotFound 500).httpStatus = 500 := ⟨rfl, rfl⟩

/-- Claim C9, amended.  A URL not under the trusted raw-content host
prefix fails with `InvalidSource` (HTTP 400) and the result does not
depend on the outbound client, so no network call is attempted; on a
trusted URL an upstream 403 fails with `Forbidden` (403), and any
other non-200 status fails with the file-not-found error carrying the
upstream status passed through (HTTP 404 exactly when the upstream
returned 404). -/
theorem claim_C9_single_file_download :
    (∀ (fetch fetch' : String → ContentResp) (url : String),
      ¬ trustedHost.toList.isPrefixOf url.toList = true →
      download_file fetch url = .error .invalidSource ∧
      download_file fetch url = download_file fetch' url) ∧
    (∀ (fetch : String → ContentResp) (url : String),
      trustedHost.toList.isPrefixOf url.toList = true →
      (fetch url).status = 403 →
      download_file fetch url = .error .forbidden) ∧
    (∀ (fetch : String → ContentResp) (url : String),
      trustedHost.toList.isPrefixOf url.toList = true →
      (fetch url).status ≠ 403 → (fetch url).status ≠ 200 →
      download_file fetch url = .error (.fileNotFound (fetch url).status)) := by
  refine ⟨?_, ?_, ?_⟩
  · intro fetch fetch' url h
    unfold download_file
    rw [if_pos h, if_pos h]
    exact ⟨rfl, rfl⟩
  · intro fetch url h h403
    unfold download_file
    rw [if_neg (fun hc => hc h)]
    simp only []
    rw [if_pos h403]
  · intro fetch url h h403 h200
    unfold download_file
    rw [if_neg (fun hc => hc h)]
    simp only []
    rw [if_neg h403, if_pos h200]

/-- Claim C9 witness: an untrusted URL is rejected identically under
two different clients; a trusted URL maps 403 to `forbidden` and 500
to the pass-through file-not-found error. -/
theorem claim_C9_witness :
    (download_file (fun _ => ⟨200, "x"⟩) "http://evil/a" =
        .error .invalidSource ∧
      download_file (fun _ => ⟨200, "x"⟩) "http://evil/a" =
        download_file (fun _ => ⟨403, "y"⟩) "http://evil/a") ∧
    download_file (fun _ => ⟨403, ""⟩)
        "https://raw.githubusercontent.com/a/b" = .error .forbidden ∧
    download_file (fun _ => ⟨500, ""⟩)
        "https://raw.githubusercontent.com/a/b" =
      .error (.fileNotFound 500) :=
  ⟨claim_C9_single_file_download.1 _ _ "http://evil/a" (by decide),
   claim_C9_single_file_download.2.1 _ "https://raw.githubusercontent.com/a/b"
     (by decide) rfl,
   claim_C9_single_file_download.2.2 _ "https://raw.githubusercontent.com/a/b"
     (by decide) (by decide) (by decide)⟩

end GitrepoDownloader
